import Mathlib

/-!
Shallow embedding of the eidos configuration-driven transpiler.

The repository has two backends, `src/cargo/src/main.rs` (C target) and
`src/python-based/src/main.rs` (Python target).  Both share the same data
model (`LanguageConfig`, `Statement`) and the same line-oriented parser
`parse_source`; they differ in the renderer (`generate_c_code` vs
`generate_python_code`).

Rust `String`/`&str` values are modeled by Lean `String` (a wrapper around
`List Char`); the string operations the source uses (`starts_with`, `trim`,
`lines`, `split_whitespace`, `replace`, slicing) are embedded as
character-level functions below.  Rust's `HashMap<String, _>` fields are
modeled as association lists `List (String × _)`: `HashMap::get` becomes
`List.lookup`, and the source's `for (k, v) in &map` loops become structural
recursion over the list, the list order standing for the map's (unspecified)
iteration order.  The mutable `HashSet<String>` of declared variables is
modeled as a `List String` used only through membership and insertion,
exactly as the source uses the set.
-/

namespace Eidos

/-- Rust `str::replace` on character data, with an explicit structural
fuel so that the function is kernel-computable: replace every
non-overlapping occurrence of `pat`, scanning left to right.  With an empty
pattern the replacement is inserted at every character boundary, as in
Rust.  Each step consumes at least one character, so fuel equal to the
input length (as supplied by `replaceList`) never runs out; the
fuel-exhausted branch returns the remaining input unchanged. -/
def replaceFuel (pat rep : List Char) : Nat → List Char → List Char
  | _, [] => if pat.isEmpty then rep else []
  | 0, c :: cs => c :: cs
  | fuel + 1, c :: cs =>
    if pat.isEmpty then
      rep ++ c :: replaceFuel pat rep fuel cs
    else if pat.isPrefixOf (c :: cs) then
      rep ++ replaceFuel pat rep fuel ((c :: cs).drop pat.length)
    else
      c :: replaceFuel pat rep fuel cs

/-- Rust `str::replace` on character data. -/
def replaceList (pat rep s : List Char) : List Char := replaceFuel pat rep s.length s

/-- Rust `str::replace`. -/
def strReplace (s pat rep : String) : String := ⟨replaceList pat.data rep.data s.data⟩

/-- Rust `str::starts_with` with a string pattern. -/
def strStarts (s p : String) : Bool := p.data.isPrefixOf s.data

/-- Rust `str::trim` on character data (whitespace via `Char.isWhitespace`). -/
def trimList (l : List Char) : List Char :=
  ((l.dropWhile Char.isWhitespace).reverse.dropWhile Char.isWhitespace).reverse

/-- Rust `str::trim`. -/
def strTrim (s : String) : String := ⟨trimList s.data⟩

/-- Split character data at every occurrence of `sep`; always returns at
least one (possibly empty) part. -/
def splitOnChar (sep : Char) : List Char → List (List Char)
  | [] => [[]]
  | c :: cs =>
    if c == sep then [] :: splitOnChar sep cs
    else
      match splitOnChar sep cs with
      | [] => [[c]]
      | p :: ps => (c :: p) :: ps

/-- Strip one trailing carriage return, as Rust `str::lines` does per line. -/
def stripCR (l : List Char) : List Char :=
  if l.getLast? == some '\r' then l.dropLast else l

/-- Rust `str::lines`: split on newline with terminator semantics (a final
empty segment produced by a trailing newline is not a line), stripping a
trailing carriage return from each line. -/
def strLines (s : String) : List String :=
  let ps := splitOnChar '\n' s.data
  let ps := if ps.getLast? == some [] then ps.dropLast else ps
  ps.map (fun l => ⟨stripCR l⟩)

/-- Rust `str::split_whitespace` on character data: maximal runs of
non-whitespace characters, in order; no empty tokens. -/
def splitWS : List Char → List String
  | [] => []
  | c :: cs =>
    if c.isWhitespace then splitWS cs
    else
      ⟨(c :: cs).takeWhile (fun ch => !ch.isWhitespace)⟩ ::
        splitWS ((c :: cs).dropWhile (fun ch => !ch.isWhitespace))
termination_by l => l.length
decreasing_by
  · simp
  · rename_i hws
    simp only [List.dropWhile_cons, Bool.not_eq_true]
    rw [if_pos (by simpa using hws)]
    have := (List.dropWhile_sublist (l := cs) (fun ch => !ch.isWhitespace)).length_le
    simp only [List.length_cons]
    omega

/-- Rust byte slicing `line[n..]` lowered to character data; at every call
site in the source, `n` is the length of a pattern already known to be a
prefix of `line`, so dropping `n` characters of the pattern's character data
agrees with dropping the pattern's bytes. -/
def strDrop (s : String) (n : Nat) : String := ⟨s.data.drop n⟩

/-- Structure `StatementDef` from the source: `syntax` is the literal line prefix that
identifies the statement (field renamed `stx` here), `template` the code
template with positional placeholders. -/
structure StatementDef where
  stx : String
  template : String
deriving DecidableEq

/-- Structure `BlockDef` from the source: literal `start`/`end` line prefixes (the end
token is named `end_` here) and a template with a body placeholder. -/
structure BlockDef where
  start : String
  end_ : String
  template : String
deriving DecidableEq

/-- Structure `OperatorDef` from the source; parsed but unused by rendering. -/
structure OperatorDef where
  symbol : String
  template : String
deriving DecidableEq

/-- Structure `LanguageConfig` from the source: three maps keyed by rule name,
modeled as association lists carrying the map's iteration order. -/
structure LanguageConfig where
  statements : List (String × StatementDef)
  blocks : List (String × BlockDef)
  operators : List (String × OperatorDef)
deriving DecidableEq

/-- The AST: `enum Statement` from the source. -/
inductive Statement where
  | Simple (name : String) (args : List String)
  | Block (name : String) (inner : List Statement)

/-- Parser state: the accumulated top-level statements and the block stack
`Vec<(String, Vec<Statement>)>`.  The head of `blockStack` is the stack's
top (the innermost open block). -/
structure ParseState where
  statements : List Statement
  blockStack : List (String × List Statement)

/-- The `for (block_name, block_def) in &config.blocks` loop of
`parse_source`: scan the block rules in iteration order and stop at the
first rule whose `start` is a prefix of the line (result flag `true`), or —
when the stack is non-empty — whose `end` is a prefix of the line (flag
`false`).  Within one rule `start` is tested before `end`. -/
def findBlockMatch (blocks : List (String × BlockDef)) (stackNonempty : Bool)
    (line : String) : Option (String × BlockDef × Bool) :=
  match blocks with
  | [] => none
  | (name, bd) :: rest =>
    if strStarts line bd.start then some (name, bd, true)
    else if stackNonempty && strStarts line bd.end_ then some (name, bd, false)
    else findBlockMatch rest stackNonempty line

/-- The `for (stmt_name, stmt_def) in &config.statements` loop of
`parse_source`: first statement rule whose `syntax` is a prefix of the line. -/
def findStmtMatch (stmts : List (String × StatementDef)) (line : String) :
    Option (String × StatementDef) :=
  match stmts with
  | [] => none
  | (name, sd) :: rest =>
    if strStarts line sd.stx then some (name, sd)
    else findStmtMatch rest line

/-- Append a finished node to the children of the innermost open block, or
to the top-level statement list when no block is open — the
`if let Some((_, block)) = block_stack.last_mut() { block.push(..) } else
{ statements.push(..) }` idiom of the source. -/
def pushNode (st : ParseState) (node : Statement) : ParseState :=
  match st.blockStack with
  | (bname, children) :: rest => ⟨st.statements, (bname, children ++ [node]) :: rest⟩
  | [] => ⟨st.statements ++ [node], []⟩

/-- The body of `parse_source`'s per-line loop (cargo backend): block rules
first (open pushes a fresh frame; close pops the innermost frame, wraps it
into a `Statement.Block` named after the rule that opened it, and appends
it one level up), then statement rules (arguments are the whitespace-split
remainder of the line after the matched `syntax`), then the default
`print` statement carrying the whole line. -/
def processLine (config : LanguageConfig) (st : ParseState) (line : String) :
    ParseState :=
  match findBlockMatch config.blocks (!st.blockStack.isEmpty) line with
  | some (bname, _, true) => ⟨st.statements, (bname, []) :: st.blockStack⟩
  | some (_, _, false) =>
    match st.blockStack with
    | (bname, inner) :: rest =>
      pushNode ⟨st.statements, rest⟩ (Statement.Block bname inner)
    | [] => st
  | none =>
    match findStmtMatch config.statements line with
    | some (sname, sd) =>
      let argsPart := strTrim (strDrop line sd.stx.data.length)
      pushNode st (Statement.Simple sname (splitWS argsPart.data))
    | none => pushNode st (Statement.Simple "print" [line])

/-- Function `parse_source` from `src/cargo/src/main.rs` (lines 73–139): iterate over
the trimmed, non-empty lines of the source, threading the parse state, and
return the accumulated top-level statements.  Frames still open on the block
stack after the last line are discarded. -/
def parse_source (source : String) (config : LanguageConfig) : List Statement :=
  let lines := ((strLines source).map strTrim).filter (fun l => !(l == ""))
  (lines.foldl (processLine config) ⟨[], []⟩).statements

/-! ### The parser of the Python backend

`src/python-based/src/main.rs` contains its own copy of `parse_source`
(lines 56–110); it is embedded separately below so that the two backends'
parsers can be compared. -/

/-- The block-rule loop of the Python backend's `parse_source`. -/
def findBlockMatchPy (blocks : List (String × BlockDef)) (stackNonempty : Bool)
    (line : String) : Option (String × BlockDef × Bool) :=
  match blocks with
  | [] => none
  | (name, bd) :: rest =>
    if strStarts line bd.start then some (name, bd, true)
    else if stackNonempty && strStarts line bd.end_ then some (name, bd, false)
    else findBlockMatchPy rest stackNonempty line

/-- The statement-rule loop of the Python backend's `parse_source`. -/
def findStmtMatchPy (stmts : List (String × StatementDef)) (line : String) :
    Option (String × StatementDef) :=
  match stmts with
  | [] => none
  | (name, sd) :: rest =>
    if strStarts line sd.stx then some (name, sd)
    else findStmtMatchPy rest line

/-- Appending a finished node, Python backend. -/
def pushNodePy (st : ParseState) (node : Statement) : ParseState :=
  match st.blockStack with
  | (bname, children) :: rest => ⟨st.statements, (bname, children ++ [node]) :: rest⟩
  | [] => ⟨st.statements ++ [node], []⟩

/-- The per-line loop body of the Python backend's `parse_source`. -/
def processLinePy (config : LanguageConfig) (st : ParseState) (line : String) :
    ParseState :=
  match findBlockMatchPy config.blocks (!st.blockStack.isEmpty) line with
  | some (bname, _, true) => ⟨st.statements, (bname, []) :: st.blockStack⟩
  | some (_, _, false) =>
    match st.blockStack with
    | (bname, inner) :: rest =>
      pushNodePy ⟨st.statements, rest⟩ (Statement.Block bname inner)
    | [] => st
  | none =>
    match findStmtMatchPy config.statements line with
    | some (sname, sd) =>
      let argsPart := strTrim (strDrop line sd.stx.data.length)
      pushNodePy st (Statement.Simple sname (splitWS argsPart.data))
    | none => pushNodePy st (Statement.Simple "print" [line])

/-- Function `parse_source` from `src/python-based/src/main.rs` (lines 56–110). -/
def parse_source_py (source : String) (config : LanguageConfig) : List Statement :=
  let lines := ((strLines source).map strTrim).filter (fun l => !(l == ""))
  (lines.foldl (processLinePy config) ⟨[], []⟩).statements

/-! ### Renderers -/

/-- Rust `"    ".repeat(indent)`. -/
def indentStr (indent : Nat) : String := String.join (List.replicate indent "    ")

/-- Rust `format!("\x7b\x7b\x7b\x7d\x7d\x7d", i)`: the positional placeholder
text `\x7bi\x7d`. -/
def placeholder (i : Nat) : String := "\x7b" ++ toString i ++ "\x7d"

/-- The placeholder-substitution loop shared by both renderers:
`for (i, arg) in args.iter().enumerate() \x7b line = line.replace(&placeholder, arg) \x7d`,
each step a plain-text replace of every occurrence of `\x7bi\x7d`. -/
def substArgs (template : String) (args : List String) : String :=
  args.enum.foldl (fun line p => strReplace line (placeholder p.1) p.2) template

/-- Function `generate_c_code` from `src/cargo/src/main.rs` (lines 144–188), with the
`&mut HashSet<String>` of declared variables made explicit: the result is
the generated code together with the final declared-variable set.  A
`Simple` statement whose rule name is missing from `config.statements`, or
a `Block` whose name is missing from `config.blocks`, is silently skipped.
For a `Simple` named "assignment" with a first argument not yet declared, a
declaration line `int <var>;` is emitted immediately before the statement
line and the variable is added to the set. -/
def generate_c_code (stmts : List Statement) (config : LanguageConfig)
    (declared_vars : List String) (indent : Nat) : String × List String :=
  match stmts with
  | [] => ("", declared_vars)
  | Statement.Simple name args :: rest =>
    match List.lookup name config.statements with
    | some sd =>
      let line := substArgs sd.template args
      let declPart : String × List String :=
        if name == "assignment" && !args.isEmpty then
          let var := args.headD ""
          if !declared_vars.contains var then
            (indentStr indent ++ "int " ++ var ++ ";\n", var :: declared_vars)
          else ("", declared_vars)
        else ("", declared_vars)
      let restRes := generate_c_code rest config declPart.2 indent
      (declPart.1 ++ (indentStr indent ++ line ++ "\n") ++ restRes.1, restRes.2)
    | none => generate_c_code rest config declared_vars indent
  | Statement.Block name inner :: rest =>
    match List.lookup name config.blocks with
    | some bd =>
      let innerRes := generate_c_code inner config declared_vars (indent + 1)
      let blockCode := strReplace bd.template "\x7bbody\x7d" innerRes.1
      let restRes := generate_c_code rest config innerRes.2 indent
      (indentStr indent ++ blockCode ++ "\n" ++ restRes.1, restRes.2)
    | none => generate_c_code rest config declared_vars indent

/-- Function `generate_python_code` from `src/python-based/src/main.rs`
(lines 112–145): the same template rendering without the declared-variable
bookkeeping.  Unknown rule names are silently skipped. -/
def generate_python_code (stmts : List Statement) (config : LanguageConfig)
    (indent : Nat) : String :=
  match stmts with
  | [] => ""
  | Statement.Simple name args :: rest =>
    match List.lookup name config.statements with
    | some sd =>
      indentStr indent ++ substArgs sd.template args ++ "\n" ++
        generate_python_code rest config indent
    | none => generate_python_code rest config indent
  | Statement.Block name inner :: rest =>
    match List.lookup name config.blocks with
    | some bd =>
      indentStr indent ++
        strReplace bd.template "\x7bbody\x7d" (generate_python_code inner config (indent + 1)) ++
        "\n" ++ generate_python_code rest config indent
    | none => generate_python_code rest config indent

/-! ### Auxiliary specification-side definitions and scenario configurations -/

/-- Whether `pat` occurs as a contiguous run inside `s`. -/
def occursIn (pat : List Char) : List Char → Bool
  | [] => pat.isEmpty
  | c :: cs => pat.isPrefixOf (c :: cs) || occursIn pat cs

/-- Language definition for the unclosed-block scenario: a single block rule
`blk` opened by the line prefix `begin` and closed by `endblk`. -/
def cfgBeginBlock : LanguageConfig :=
  ⟨[], [("blk", ⟨"begin", "endblk", "<\x7bbody\x7d>"⟩)], []⟩

/-- Statement-only language definition with a single rule `say`. -/
def cfgSayOnly : LanguageConfig :=
  ⟨[("say", ⟨"say ", "output(\x7b0\x7d);"⟩)], [], []⟩

/-- Language definition with crossed block patterns: rule A's `end` token
equals rule B's `start` token. -/
def cfgCrossA : LanguageConfig :=
  ⟨[], [("A", ⟨"zz", "b", "[\x7bbody\x7d]"⟩), ("B", ⟨"b", "zz", "(\x7bbody\x7d)"⟩)], []⟩

/-- Language definition with crossed block patterns: rule C's `end` token
equals rule D's `start` token. -/
def cfgCrossB : LanguageConfig :=
  ⟨[], [("C", ⟨"qq", "op", "[\x7bbody\x7d]"⟩), ("D", ⟨"op", "rr", "(\x7bbody\x7d)"⟩)], []⟩

/-- Language definition with an `assignment` statement rule. -/
def cfgAssign : LanguageConfig :=
  ⟨[("assignment", ⟨"let ", "\x7b0\x7d = \x7b1\x7d;"⟩)], [], []⟩

/-- One observable emission of the C renderer: a variable-declaration line
(`decl v text`), a rendered statement line of an `assignment` node tagged
with the assigned variable (`assign v text`), or any other rendered
statement line (`plain text`).  A block's template text wraps its
children's emissions inside the output string without emitting statement
lines of its own. -/
inductive REv where
  | decl (v : String) (text : String)
  | assign (v : String) (text : String)
  | plain (text : String)

/-- Is this event the declaration of `v`? -/
def isDeclFor (v : String) : REv → Bool
  | REv.decl w _ => w == v
  | _ => false

/-- Is this event a rendered assignment to `v`? -/
def isAssignTo (v : String) : REv → Bool
  | REv.assign w _ => w == v
  | _ => false

/-- Ghost-instrumented `generate_c_code`: the same recursion, branching,
string building and declared-set threading as `generate_c_code`
(see `genCTrace_matches`), additionally returning the ordered list of
statement-level emission events. -/
def genCTrace (stmts : List Statement) (config : LanguageConfig)
    (declared_vars : List String) (indent : Nat) :
    List REv × String × List String :=
  match stmts with
  | [] => ([], "", declared_vars)
  | Statement.Simple name args :: rest =>
    match List.lookup name config.statements with
    | some sd =>
      let line := substArgs sd.template args
      let declPart : List REv × String × List String :=
        if name == "assignment" && !args.isEmpty then
          let var := args.headD ""
          if !declared_vars.contains var then
            ([REv.decl var (indentStr indent ++ "int " ++ var ++ ";\n")],
             indentStr indent ++ "int " ++ var ++ ";\n", var :: declared_vars)
          else ([], "", declared_vars)
        else ([], "", declared_vars)
      let lineEv : REv :=
        if name == "assignment" && !args.isEmpty then
          REv.assign (args.headD "") (indentStr indent ++ line ++ "\n")
        else REv.plain (indentStr indent ++ line ++ "\n")
      let restRes := genCTrace rest config declPart.2.2 indent
      (declPart.1 ++ lineEv :: restRes.1,
       declPart.2.1 ++ (indentStr indent ++ line ++ "\n") ++ restRes.2.1,
       restRes.2.2)
    | none => genCTrace rest config declared_vars indent
  | Statement.Block name inner :: rest =>
    match List.lookup name config.blocks with
    | some bd =>
      let innerRes := genCTrace inner config declared_vars (indent + 1)
      let blockCode := strReplace bd.template "\x7bbody\x7d" innerRes.2.1
      let restRes := genCTrace rest config innerRes.2.2 indent
      (innerRes.1 ++ restRes.1,
       indentStr indent ++ blockCode ++ "\n" ++ restRes.2.1,
       restRes.2.2)
    | none => genCTrace rest config declared_vars indent

/-! ## Theorems -/

/-- Claim C1. The claim requires the input `"begin\nfoo"`, whose `begin` opens
a block that is never closed, to raise a `MalformedSource` structural
error.  The code has no error channel at all (`parse_source` totally
returns a `Vec<Statement>`): on this input it returns the empty top-level
tree, silently dropping the unclosed frame together with the `foo`
statement that was parsed into it. -/
theorem C1_unclosed_block_is_silently_dropped :
    parse_source "begin\nfoo" cfgBeginBlock = [] := by rfl

/-- Claim C2. The claim requires rendering a `StatementNode` or `BlockNode`
whose rule name is absent from the corresponding mapping to fail with an
`UnknownRule` error.  Both renderers instead silently omit such nodes: on an
AST holding one unknown statement and one unknown block they produce the
empty output (and no error — their result types have no error channel). -/
theorem C2_unknown_rule_is_silently_skipped :
    generate_c_code [Statement.Simple "mystery" ["x"], Statement.Block "mystery" []]
        cfgSayOnly [] 1 = ("", [])
    ∧ generate_python_code [Statement.Simple "mystery" ["x"], Statement.Block "mystery" []]
        cfgSayOnly 1 = "" := by
  refine ⟨?_, ?_⟩ <;> simp [generate_c_code, generate_python_code, cfgSayOnly, List.lookup]

/-- Lemma: `findBlockMatch` scans in iteration order: rules that match neither by
`start` nor (given the stack flag) by `end` are skipped, and the scan is
decided at the first rule that matches either way. -/
theorem findBlockMatch_append (pre : List (String × BlockDef)) (name : String)
    (bd : BlockDef) (post : List (String × BlockDef)) (sne : Bool) (line : String)
    (hpre : ∀ p ∈ pre, strStarts line p.2.start = false ∧
      (sne && strStarts line p.2.end_) = false) :
    findBlockMatch (pre ++ (name, bd) :: post) sne line =
      (if strStarts line bd.start then some (name, bd, true)
       else if sne && strStarts line bd.end_ then some (name, bd, false)
       else findBlockMatch post sne line) := by
  induction pre with
  | nil => simp [findBlockMatch]
  | cons hd tl ih =>
    obtain ⟨n2, bd2⟩ := hd
    have h1 := hpre (n2, bd2) (by simp)
    simp only [List.cons_append, findBlockMatch]
    rw [if_neg (by simp [h1.1]), if_neg (by simp [h1.2])]
    exact ih (fun p hp => hpre p (by simp [hp]))

/-- When no block rule matches the line at all, the block loop finds
nothing. -/
theorem findBlockMatch_none (blocks : List (String × BlockDef)) (sne : Bool)
    (line : String)
    (h : ∀ p ∈ blocks, strStarts line p.2.start = false ∧
      (sne && strStarts line p.2.end_) = false) :
    findBlockMatch blocks sne line = none := by
  induction blocks with
  | nil => rfl
  | cons hd tl ih =>
    obtain ⟨n, bd⟩ := hd
    have h1 := h (n, bd) (by simp)
    simp only [findBlockMatch]
    rw [if_neg (by simp [h1.1]), if_neg (by simp [h1.2])]
    exact ih (fun p hp => h p (by simp [hp]))

/-- A close outcome can only come from a non-empty stack and a rule whose
`end` is a prefix of the line while its `start` is not. -/
theorem findBlockMatch_close_inv (blocks : List (String × BlockDef)) (sne : Bool)
    (line : String) (n : String) (bd : BlockDef)
    (h : findBlockMatch blocks sne line = some (n, bd, false)) :
    sne = true ∧ strStarts line bd.end_ = true ∧ strStarts line bd.start = false := by
  induction blocks with
  | nil => simp [findBlockMatch] at h
  | cons hd tl ih =>
    obtain ⟨n2, bd2⟩ := hd
    simp only [findBlockMatch] at h
    by_cases h1 : strStarts line bd2.start
    · rw [if_pos h1] at h
      simp at h
    · rw [if_neg h1] at h
      by_cases h2 : sne && strStarts line bd2.end_
      · rw [if_pos h2] at h
        simp only [Option.some.injEq, Prod.mk.injEq] at h
        obtain ⟨hn, hbd, -⟩ := h
        subst hn hbd
        simp only [Bool.and_eq_true] at h2
        exact ⟨h2.1, h2.2, by simpa using h1⟩
      · rw [if_neg h2] at h
        exact ih h

/-- When no statement rule's `syntax` is a prefix of the line, the statement
loop finds nothing. -/
theorem findStmtMatch_none (stmts : List (String × StatementDef)) (line : String)
    (h : ∀ p ∈ stmts, strStarts line p.2.stx = false) :
    findStmtMatch stmts line = none := by
  induction stmts with
  | nil => rfl
  | cons hd tl ih =>
    obtain ⟨n, sd⟩ := hd
    have h1 := h (n, sd) (by simp)
    simp only [findStmtMatch]
    rw [if_neg (by simp [h1])]
    exact ih (fun p hp => h p (by simp [hp]))

/-- Claim C3, counterexample. On the line `b` with a block open, rule B's
`start` pattern (`b`) is a prefix of the line, yet the classifier produces a
close-block outcome for rule A (whose `end` pattern is also `b`) because A
comes first in the mapping's iteration order: open-block does NOT take
precedence over close-block across different rules.  End to end, the source
`"zz\nb"` parses to `[Block A []]`, where the claim requires the line `b`
to open a B block (leaving A and B unclosed). -/
theorem C3_counterexample :
    strStarts "b" "b" = true
    ∧ findBlockMatch cfgCrossA.blocks true "b" =
        some ("A", ⟨"zz", "b", "[\x7bbody\x7d]"⟩, false)
    ∧ parse_source "zz\nb" cfgCrossA = [Statement.Block "A" []] :=
  ⟨rfl, rfl, rfl⟩

/-- Claim C3, amended. If some block rule's `start` pattern is a prefix of
the line and no earlier rule in the blocks mapping's iteration order
matches the line (neither by `start`, nor — when the parse stack is
non-empty — by `end`), then the line is classified as an open-block
outcome and a new frame is pushed for the first such rule, taking
precedence over close-block (of the same or any later rule), statement,
and default classification. -/
theorem C3_open_block_first_match (config : LanguageConfig) (st : ParseState)
    (line : String) (pre post : List (String × BlockDef)) (name : String) (bd : BlockDef)
    (hsplit : config.blocks = pre ++ (name, bd) :: post)
    (hstart : strStarts line bd.start = true)
    (hpre : ∀ p ∈ pre, strStarts line p.2.start = false ∧
      (st.blockStack.isEmpty = false → strStarts line p.2.end_ = false)) :
    processLine config st line = ⟨st.statements, (name, []) :: st.blockStack⟩ := by
  have hpre' : ∀ p ∈ pre, strStarts line p.2.start = false ∧
      ((!st.blockStack.isEmpty) && strStarts line p.2.end_) = false := by
    intro p hp
    refine ⟨(hpre p hp).1, ?_⟩
    cases hst : st.blockStack.isEmpty
    · simp [(hpre p hp).2 hst]
    · simp [hst]
  unfold processLine
  rw [hsplit, findBlockMatch_append pre name bd post _ line hpre', if_pos hstart]

/-- Closed instance of the C3 theorem: with no earlier rule in the way, the
line `zz` (rule A's `start`) pushes a fresh A frame. -/
theorem C3_witness :
    processLine cfgCrossA ⟨[], []⟩ "zz" = ⟨[], [("A", [])]⟩ :=
  C3_open_block_first_match cfgCrossA ⟨[], []⟩ "zz" []
    [("B", ⟨"b", "zz", "(\x7bbody\x7d)"⟩)] "A" ⟨"zz", "b", "[\x7bbody\x7d]"⟩
    rfl rfl (by simp)

/-- Claim C4, counterexample. The claim makes "no start pattern matched" a
necessary condition for a close-block outcome.  On the line `op` with a
block open, rule D's `start` pattern (`op`) is a prefix of the line, yet the
outcome is a close-block for rule C, whose `end` pattern is scanned first:
the source `"qq\nop"` parses to `[Block C []]` even though a start pattern
matched the closing line. -/
theorem C4_counterexample :
    strStarts "op" "op" = true
    ∧ findBlockMatch cfgCrossB.blocks true "op" =
        some ("C", ⟨"qq", "op", "[\x7bbody\x7d]"⟩, false)
    ∧ parse_source "qq\nop" cfgCrossB = [Statement.Block "C" []] :=
  ⟨rfl, rfl, rfl⟩

/-- Claim C4, amended. A close-block outcome occurs only when the parse
stack is non-empty and the deciding rule's `end` pattern is a prefix of the
line while its own `start` pattern is not (earlier rules' start patterns
need not fail — see the counterexample).  When the first matching rule in
iteration order matches by `end` (stack non-empty), the innermost frame is
popped regardless of which rule opened it, wrapped into a `Block` node
named after the opening rule, and appended to the new top frame's children
or to the top-level sequence when the stack empties.  With an empty stack,
end patterns are never consulted: a line matching no `start` pattern falls
through to statement/default classification. -/
theorem C4_close_block_characterization (config : LanguageConfig) (line : String) :
    (∀ (sne : Bool) (n : String) (bd : BlockDef),
        findBlockMatch config.blocks sne line = some (n, bd, false) →
        sne = true ∧ strStarts line bd.end_ = true ∧ strStarts line bd.start = false)
    ∧ (∀ (pre post : List (String × BlockDef)) (name : String) (bd : BlockDef)
        (sts : List Statement) (bname : String) (inner : List Statement)
        (rest : List (String × List Statement)),
        config.blocks = pre ++ (name, bd) :: post →
        strStarts line bd.start = false →
        strStarts line bd.end_ = true →
        (∀ p ∈ pre, strStarts line p.2.start = false ∧ strStarts line p.2.end_ = false) →
        processLine config ⟨sts, (bname, inner) :: rest⟩ line =
          pushNode ⟨sts, rest⟩ (Statement.Block bname inner))
    ∧ (∀ (sts : List Statement),
        (∀ p ∈ config.blocks, strStarts line p.2.start = false) →
        processLine config ⟨sts, []⟩ line =
          (match findStmtMatch config.statements line with
           | some (sname, sd) =>
             pushNode ⟨sts, []⟩
               (Statement.Simple sname
                 (splitWS (strTrim (strDrop line sd.stx.data.length)).data))
           | none => pushNode ⟨sts, []⟩ (Statement.Simple "print" [line]))) := by
  refine ⟨fun sne n bd h => findBlockMatch_close_inv config.blocks sne line n bd h,
    ?_, ?_⟩
  · intro pre post name bd sts bname inner rest hsplit hstart hend hpre
    unfold processLine
    rw [hsplit]
    rw [findBlockMatch_append pre name bd post _ line
      (fun p hp => ⟨(hpre p hp).1, by simp [(hpre p hp).2]⟩)]
    simp only [List.isEmpty_cons, Bool.not_false, Bool.true_and]
    rw [if_neg (by simp [hstart]), if_pos hend]
  · intro sts hb
    unfold processLine
    rw [findBlockMatch_none _ _ _ (fun p hp => ⟨hb p hp, by simp⟩)]

/-- Closed instance of the C4 theorem: the line `op` closes the innermost
(X) frame of `cfgCrossB`, appending `Block X []` at top level. -/
theorem C4_witness :
    processLine cfgCrossB ⟨[], [("X", [])]⟩ "op" =
      pushNode ⟨[], []⟩ (Statement.Block "X" []) :=
  (C4_close_block_characterization cfgCrossB "op").2.1 []
    [("D", ⟨"op", "rr", "(\x7bbody\x7d)"⟩)] "C" ⟨"qq", "op", "[\x7bbody\x7d]"⟩
    [] "X" [] [] rfl rfl rfl (by simp)

/-- Claim C6. A trimmed non-empty line matched by no block rule's `start` or
`end` pattern and by no statement rule's `syntax` pattern is classified as
the default statement: a `Simple` node with the reserved rule name
`print` and the full line text as its single argument. -/
theorem C6_default_print_statement (config : LanguageConfig) (st : ParseState)
    (line : String)
    (hb : ∀ p ∈ config.blocks, strStarts line p.2.start = false ∧
      strStarts line p.2.end_ = false)
    (hs : ∀ p ∈ config.statements, strStarts line p.2.stx = false) :
    processLine config st line = pushNode st (Statement.Simple "print" [line]) := by
  unfold processLine
  rw [findBlockMatch_none _ _ _ (fun p hp => ⟨(hb p hp).1, by simp [(hb p hp).2]⟩),
    findStmtMatch_none _ _ hs]

/-- Closed instance of the C6 theorem: the line `hello world` matches no
rule of `cfgSayOnly`, so it becomes the default `print ["hello world"]`. -/
theorem C6_witness :
    processLine cfgSayOnly ⟨[], []⟩ "hello world" =
      pushNode ⟨[], []⟩ (Statement.Simple "print" ["hello world"]) :=
  C6_default_print_statement cfgSayOnly ⟨[], []⟩ "hello world"
    (by simp [cfgSayOnly]) (by simp [cfgSayOnly]; rfl)

/-- If `pat` occurs nowhere in `s`, replacement leaves `s` unchanged, for
any amount of fuel. -/
theorem replaceFuel_of_not_occurs (pat rep : List Char) :
    ∀ (fuel : Nat) (s : List Char), occursIn pat s = false →
      replaceFuel pat rep fuel s = s := by
  intro fuel
  induction fuel with
  | zero =>
    intro s hs
    match s with
    | [] =>
      simp only [occursIn] at hs
      simp [replaceFuel, hs]
    | c :: cs => rfl
  | succ n ih =>
    intro s hs
    match s with
    | [] =>
      simp only [occursIn] at hs
      simp [replaceFuel, hs]
    | c :: cs =>
      simp only [occursIn, Bool.or_eq_false_iff] at hs
      have hemp : pat.isEmpty = false := by
        cases pat
        · simp [List.isPrefixOf] at hs
        · simp [List.isEmpty]
      simp only [replaceFuel]
      rw [if_neg (by simp [hemp]), if_neg (by simp [hs.1])]
      rw [ih cs hs.2]

/-- String form: a pattern that does not occur is not replaced. -/
theorem strReplace_of_not_occurs (s pat rep : String)
    (h : occursIn pat.data s.data = false) : strReplace s pat rep = s := by
  unfold strReplace replaceList
  rw [replaceFuel_of_not_occurs pat.data rep.data s.data.length s.data h]

/-- Claim C5, counterexample. Template `X(\x7b0\x7d)` declares only the
placeholder `\x7b0\x7d`, and `\x7b1\x7d` occurs nowhere in it, so by the
claim the second argument (position 1) is "beyond the declared
placeholders" and must be ignored — the result should be `X(\x7b1\x7d)`,
as it is when only the first argument is supplied.  But substitution is
sequential on the rewritten string: the first argument's text `\x7b1\x7d`
becomes a live placeholder that the second argument then replaces, giving
`X(b)`. -/
theorem C5_counterexample :
    substArgs "X(\x7b0\x7d)" ["\x7b1\x7d", "b"] = "X(b)"
    ∧ substArgs "X(\x7b0\x7d)" ["\x7b1\x7d"] = "X(\x7b1\x7d)"
    ∧ occursIn (placeholder 1).data "X(\x7b0\x7d)".data = false :=
  ⟨rfl, rfl, rfl⟩

/-- Claim C5, amended. Rendering substitutes each argument at position `i`
for the exact placeholder text `\x7bi\x7d`, left to right, by plain text
replacement applied to the successively rewritten string — so placeholder
text introduced by earlier-substituted arguments can itself be replaced by
later arguments.  An argument whose placeholder does not occur in the
current string is ignored (leaves the string unchanged); with no arguments
the template is returned verbatim, so placeholders with no corresponding
argument survive.  In particular `X(\x7b0\x7d)` with `["a"]` yields
`X(a)` and with `[]` yields `X(\x7b0\x7d)` unchanged. -/
theorem C5_substitution_sequential (template : String) (args : List String)
    (a s : String) (i : Nat)
    (hocc : occursIn (placeholder i).data s.data = false) :
    substArgs template (args ++ [a]) =
      strReplace (substArgs template args) (placeholder args.length) a
    ∧ strReplace s (placeholder i) a = s
    ∧ substArgs template [] = template
    ∧ substArgs "X(\x7b0\x7d)" ["a"] = "X(a)"
    ∧ substArgs "X(\x7b0\x7d)" [] = "X(\x7b0\x7d)" := by
  refine ⟨?_, strReplace_of_not_occurs s (placeholder i) a hocc, rfl, rfl, rfl⟩
  simp [substArgs, List.enum_append, List.foldl_append]

/-- Closed instance of the C5 theorem. -/
theorem C5_witness :
    substArgs "T" ["z"] = strReplace (substArgs "T" []) (placeholder 0) "z"
    ∧ strReplace "X" (placeholder 0) "z" = "X"
    ∧ substArgs "T" [] = "T"
    ∧ substArgs "X(\x7b0\x7d)" ["a"] = "X(a)"
    ∧ substArgs "X(\x7b0\x7d)" [] = "X(\x7b0\x7d)" :=
  C5_substitution_sequential "T" [] "z" "X" 0 (by rfl)

/-- Claim C7. Rendering a `Block` node with an empty child sequence
substitutes the empty string for the `\x7bbody\x7d` placeholder of the
block's template by exact text replacement, in both backends; in
particular the template `\x7b \x7bbody\x7d \x7d` renders the block text
`\x7b  \x7d`, whitespace preserved exactly. -/
theorem C7_empty_block_renders_empty_body (config : LanguageConfig) (name : String)
    (bd : BlockDef) (dv : List String) (indent : Nat)
    (h : List.lookup name config.blocks = some bd) :
    generate_c_code [Statement.Block name []] config dv indent =
      (indentStr indent ++ strReplace bd.template "\x7bbody\x7d" "" ++ "\n", dv)
    ∧ generate_python_code [Statement.Block name []] config indent =
      indentStr indent ++ strReplace bd.template "\x7bbody\x7d" "" ++ "\n"
    ∧ strReplace "\x7b \x7bbody\x7d \x7d" "\x7bbody\x7d" "" = "\x7b  \x7d" := by
  refine ⟨?_, ?_, rfl⟩
  · simp [generate_c_code, h]
  · simp [generate_python_code, h]

/-- Closed instance of the C7 theorem on the `blk` rule of
`cfgBeginBlock`. -/
theorem C7_witness :
    generate_c_code [Statement.Block "blk" []] cfgBeginBlock [] 0 =
      (indentStr 0 ++ strReplace "<\x7bbody\x7d>" "\x7bbody\x7d" "" ++ "\n", [])
    ∧ generate_python_code [Statement.Block "blk" []] cfgBeginBlock 0 =
      indentStr 0 ++ strReplace "<\x7bbody\x7d>" "\x7bbody\x7d" "" ++ "\n"
    ∧ strReplace "\x7b \x7bbody\x7d \x7d" "\x7bbody\x7d" "" = "\x7b  \x7d" :=
  C7_empty_block_renders_empty_body cfgBeginBlock "blk"
    ⟨"begin", "endblk", "<\x7bbody\x7d>"⟩ [] 0 rfl

/-- Claim C8. Rendering output depends only on the inputs and, for the
declared-variable set, only on its membership — not on the set's internal
representation or element order, which is all a Rust `HashSet` leaves
unspecified between runs.  Hence two top-level render invocations of the
same AST with the same language definition (each starting, as `main` does,
from a freshly created empty set) produce byte-identical output: rendering
is deterministic and no state leaks between invocations. -/
theorem C8_render_deterministic (stmts : List Statement) (config : LanguageConfig)
    (dv₁ dv₂ : List String) (indent : Nat)
    (h : ∀ v, dv₁.contains v = dv₂.contains v) :
    (generate_c_code stmts config dv₁ indent).1 =
      (generate_c_code stmts config dv₂ indent).1
    ∧ ∀ v, (generate_c_code stmts config dv₁ indent).2.contains v =
      (generate_c_code stmts config dv₂ indent).2.contains v := by
  induction stmts, config, dv₁, indent using generate_c_code.induct generalizing dv₂ with
  | case1 config dv indent =>
    constructor
    · simp only [generate_c_code]
    · simpa only [generate_c_code] using h
  | case2 config dv indent name args rest sd hlook declPart ih =>
    unfold declPart at ih
    by_cases hA : (name == "assignment" && !args.isEmpty) = true
    · by_cases hC : dv.contains (args.headD "") = true
      · have hC₂ : dv₂.contains (args.headD "") = true := by rw [← h]; exact hC
        simp only [generate_c_code, hlook, hA, hC, hC₂, Bool.not_true,
          Bool.false_eq_true, dite_true, dite_false, if_true, if_false] at ih ⊢
        obtain ⟨h1, h2⟩ := ih dv₂ h
        exact ⟨by rw [h1], h2⟩
      · have hC' : dv.contains (args.headD "") = false := by simpa using hC
        have hC₂ : dv₂.contains (args.headD "") = false := by rw [← h]; exact hC'
        simp only [generate_c_code, hlook, hA, hC', hC₂, Bool.not_false,
          eq_self_iff_true, dite_true, if_true] at ih ⊢
        have hext : ∀ v, (args.headD "" :: dv).contains v =
            (args.headD "" :: dv₂).contains v := by
          intro v
          simp only [List.contains_cons, h v]
        obtain ⟨h1, h2⟩ := ih (args.headD "" :: dv₂) hext
        exact ⟨by rw [h1], h2⟩
    · have hA' : (name == "assignment" && !args.isEmpty) = false := by simpa using hA
      simp only [generate_c_code, hlook, hA', Bool.false_eq_true, dite_false,
        if_false] at ih ⊢
      obtain ⟨h1, h2⟩ := ih dv₂ h
      exact ⟨by rw [h1], h2⟩
  | case3 config dv indent name args rest hlook ih =>
    simp only [generate_c_code, hlook]
    exact ih dv₂ h
  | case4 config dv indent name inner rest bd hlook innerRes ihInner ihRest =>
    unfold innerRes at ihRest
    simp only [generate_c_code, hlook]
    obtain ⟨h1, h2⟩ := ihInner dv₂ h
    obtain ⟨h3, h4⟩ := ihRest (generate_c_code inner config dv₂ (indent + 1)).2 h2
    exact ⟨by rw [h1, h3], h4⟩
  | case5 config dv indent name inner rest hlook ih =>
    simp only [generate_c_code, hlook]
    exact ih dv₂ h

/-- The instrumentation is faithful: string output and final declared set
of `genCTrace` coincide with `generate_c_code` on all inputs. -/
theorem genCTrace_matches (stmts : List Statement) (config : LanguageConfig)
    (dv : List String) (indent : Nat) :
    (genCTrace stmts config dv indent).2.1 = (generate_c_code stmts config dv indent).1
    ∧ (genCTrace stmts config dv indent).2.2 = (generate_c_code stmts config dv indent).2 := by
  induction stmts, config, dv, indent using genCTrace.induct with
  | case1 config dv indent =>
    simp [genCTrace, generate_c_code]
  | case2 config dv indent name args rest sd hlook declPart ih =>
    unfold declPart at ih
    by_cases hA : (name == "assignment" && !args.isEmpty) = true
    · by_cases hC : dv.contains (args.headD "") = true
      · simp only [genCTrace, generate_c_code, hlook, hA, hC, Bool.not_true,
          Bool.false_eq_true, dite_true, dite_false, if_true, if_false] at ih ⊢
        exact ⟨by rw [ih.1], ih.2⟩
      · have hC' : dv.contains (args.headD "") = false := by simpa using hC
        simp only [genCTrace, generate_c_code, hlook, hA, hC', Bool.not_false,
          eq_self_iff_true, dite_true, if_true] at ih ⊢
        exact ⟨by rw [ih.1], ih.2⟩
    · have hA' : (name == "assignment" && !args.isEmpty) = false := by simpa using hA
      simp only [genCTrace, generate_c_code, hlook, hA', Bool.false_eq_true,
        dite_false, if_false] at ih ⊢
      exact ⟨by rw [ih.1], ih.2⟩
  | case3 config dv indent name args rest hlook ih =>
    simp only [genCTrace, generate_c_code, hlook]
    exact ih
  | case4 config dv indent name inner rest bd hlook innerRes ihInner ihRest =>
    unfold innerRes at ihRest
    simp only [genCTrace, generate_c_code, hlook]
    constructor
    · rw [ihRest.1, ihInner.1, ihInner.2]
    · rw [ihRest.2, ihInner.2]
  | case5 config dv indent name inner rest hlook ih =>
    simp only [genCTrace, generate_c_code, hlook]
    exact ih

/-- Declaration-emission invariant of the instrumented C renderer, relative
to the incoming declared set `dv`:
(i) the final set contains `v` iff `dv` did or the trace holds a rendered
assignment to `v`;
(ii) if `v` comes in already declared, no declaration of `v` is emitted;
(iii) if `v` comes in undeclared, the trace either holds no declaration of
and no assignment to `v`, or splits as `t₁ ++ [decl v, assign v] ++ t₂`
with no `v`-events before the declaration and no further declaration of
`v` after it. -/
theorem genCTrace_decl_invariant (v : String) (stmts : List Statement)
    (config : LanguageConfig) (dv : List String) (indent : Nat) :
    ((genCTrace stmts config dv indent).2.2.contains v = true ↔
      (dv.contains v = true ∨
        ∃ e ∈ (genCTrace stmts config dv indent).1, isAssignTo v e = true))
    ∧ (dv.contains v = true →
        ∀ e ∈ (genCTrace stmts config dv indent).1, isDeclFor v e = false)
    ∧ (dv.contains v = false →
        ((∀ e ∈ (genCTrace stmts config dv indent).1,
            isDeclFor v e = false ∧ isAssignTo v e = false)
         ∨ ∃ t₁ k s t₂,
            (genCTrace stmts config dv indent).1 =
              t₁ ++ REv.decl v (indentStr k ++ "int " ++ v ++ ";\n")
                :: REv.assign v s :: t₂
            ∧ (∀ e ∈ t₁, isDeclFor v e = false ∧ isAssignTo v e = false)
            ∧ (∀ e ∈ t₂, isDeclFor v e = false))) := by
  induction stmts, config, dv, indent using genCTrace.induct with
  | case1 config dv indent =>
    refine ⟨?_, ?_, ?_⟩ <;> simp [genCTrace]
  | case2 config dv indent name args rest sd hlook declPart ih =>
    unfold declPart at ih
    by_cases hA : (name == "assignment" && !args.isEmpty) = true
    · by_cases hC : dv.contains (args.headD "") = true
      · -- already declared: no new declaration, one assignment event
        simp only [genCTrace, hlook, hA, hC, Bool.not_true, Bool.false_eq_true,
          dite_true, dite_false, if_true, if_false] at ih ⊢
        obtain ⟨iA, iB, iC⟩ := ih
        refine ⟨?_, ?_, ?_⟩
        · rw [iA]
          constructor
          · rintro (hd | ⟨e, he, hp⟩)
            · exact Or.inl hd
            · exact Or.inr ⟨e, List.mem_cons_of_mem _ he, hp⟩
          · rintro (hd | ⟨e, he, hp⟩)
            · exact Or.inl hd
            · rcases List.mem_cons.mp he with rfl | he'
              · have hv : args.headD "" = v := eq_of_beq (by simpa [isAssignTo] using hp)
                exact Or.inl (hv ▸ hC)
              · exact Or.inr ⟨e, he', hp⟩
        · intro hdv e he
          rcases List.mem_cons.mp he with rfl | he'
          · rfl
          · exact iB hdv e he'
        · intro hdv
          have hne : args.headD "" ≠ v := by
            intro hv
            rw [hv] at hC
            rw [hC] at hdv
            exact Bool.noConfusion hdv
          rcases iC hdv with hno | ⟨t₁, k, s, t₂, heq, h₁, h₂⟩
          · left
            intro e he
            rcases List.mem_cons.mp he with rfl | he'
            · exact ⟨rfl, by simp only [isAssignTo, beq_eq_false_iff_ne]; exact hne⟩
            · exact hno e he'
          · right
            refine ⟨_ :: t₁, k, s, t₂, by rw [heq]; rfl, ?_, h₂⟩
            intro e he
            rcases List.mem_cons.mp he with rfl | he'
            · exact ⟨rfl, by simp only [isAssignTo, beq_eq_false_iff_ne]; exact hne⟩
            · exact h₁ e he'
      · -- fresh variable: declaration event immediately before the assignment
        have hC' : dv.contains (args.headD "") = false := by simpa using hC
        simp only [genCTrace, hlook, hA, hC', Bool.not_false, eq_self_iff_true,
          dite_true, if_true] at ih ⊢
        obtain ⟨iA, iB, iC⟩ := ih
        by_cases hv : args.headD "" = v
        · rw [hv] at iA iB iC hC' ⊢
          have hctop : (v :: dv).contains v = true := by
            rw [List.contains_cons]; simp
          refine ⟨?_, ?_, ?_⟩
          · constructor
            · intro _
              exact Or.inr ⟨_, List.mem_cons_of_mem _ (List.mem_cons_self _ _),
                by simp [isAssignTo]⟩
            · intro _
              rw [iA]
              exact Or.inl hctop
          · intro hdv
            rw [hdv] at hC'
            exact Bool.noConfusion hC'
          · intro _
            right
            refine ⟨[], indent, _, _, rfl, by simp, ?_⟩
            exact iB hctop
        · have hbv : (v == args.headD "") = false := by
            simp only [beq_eq_false_iff_ne]
            exact Ne.symm hv
          have hcv : (args.headD "" :: dv).contains v = dv.contains v := by
            rw [List.contains_cons, hbv, Bool.false_or]
          rw [hcv] at iA iB iC
          refine ⟨?_, ?_, ?_⟩
          · rw [iA]
            constructor
            · rintro (hd | ⟨e, he, hp⟩)
              · exact Or.inl hd
              · exact Or.inr ⟨e,
                  List.mem_cons_of_mem _ (List.mem_cons_of_mem _ he), hp⟩
            · rintro (hd | ⟨e, he, hp⟩)
              · exact Or.inl hd
              · rcases List.mem_cons.mp he with rfl | he'
                · simp [isAssignTo] at hp
                · rcases List.mem_cons.mp he' with rfl | he''
                  · have : args.headD "" = v := eq_of_beq (by simpa [isAssignTo] using hp)
                    exact absurd this hv
                  · exact Or.inr ⟨e, he'', hp⟩
          · intro hdv e he
            rcases List.mem_cons.mp he with rfl | he'
            · simp only [isDeclFor, beq_eq_false_iff_ne]
              exact hv
            · rcases List.mem_cons.mp he' with rfl | he''
              · rfl
              · exact iB hdv e he''
          · intro hdv
            rcases iC hdv with hno | ⟨t₁, k, s, t₂, heq, h₁, h₂⟩
            · left
              intro e he
              rcases List.mem_cons.mp he with rfl | he'
              · exact ⟨by simp only [isDeclFor, beq_eq_false_iff_ne]; exact hv, rfl⟩
              · rcases List.mem_cons.mp he' with rfl | he''
                · exact ⟨rfl, by simp only [isAssignTo, beq_eq_false_iff_ne]; exact hv⟩
                · exact hno e he''
            · right
              refine ⟨_ :: _ :: t₁, k, s, t₂, by rw [heq]; rfl, ?_, h₂⟩
              intro e he
              rcases List.mem_cons.mp he with rfl | he'
              · exact ⟨by simp only [isDeclFor, beq_eq_false_iff_ne]; exact hv, rfl⟩
              · rcases List.mem_cons.mp he' with rfl | he''
                · exact ⟨rfl, by simp only [isAssignTo, beq_eq_false_iff_ne]; exact hv⟩
                · exact h₁ e he''
    · -- not an assignment: a plain statement event
      have hA' : (name == "assignment" && !args.isEmpty) = false := by simpa using hA
      simp only [genCTrace, hlook, hA', Bool.false_eq_true, dite_false,
        if_false] at ih ⊢
      obtain ⟨iA, iB, iC⟩ := ih
      refine ⟨?_, ?_, ?_⟩
      · rw [iA]
        constructor
        · rintro (hd | ⟨e, he, hp⟩)
          · exact Or.inl hd
          · exact Or.inr ⟨e, List.mem_cons_of_mem _ he, hp⟩
        · rintro (hd | ⟨e, he, hp⟩)
          · exact Or.inl hd
          · rcases List.mem_cons.mp he with rfl | he'
            · simp [isAssignTo] at hp
            · exact Or.inr ⟨e, he', hp⟩
      · intro hdv e he
        rcases List.mem_cons.mp he with rfl | he'
        · rfl
        · exact iB hdv e he'
      · intro hdv
        rcases iC hdv with hno | ⟨t₁, k, s, t₂, heq, h₁, h₂⟩
        · left
          intro e he
          rcases List.mem_cons.mp he with rfl | he'
          · exact ⟨rfl, rfl⟩
          · exact hno e he'
        · right
          refine ⟨_ :: t₁, k, s, t₂, by rw [heq]; rfl, ?_, h₂⟩
          intro e he
          rcases List.mem_cons.mp he with rfl | he'
          · exact ⟨rfl, rfl⟩
          · exact h₁ e he'
  | case3 config dv indent name args rest hlook ih =>
    simp only [genCTrace, hlook]
    exact ih
  | case4 config dv indent name inner rest bd hlook innerRes ihInner ihRest =>
    unfold innerRes at ihRest
    simp only [genCTrace, hlook]
    obtain ⟨iA, iB, iC⟩ := ihInner
    obtain ⟨rA, rB, rC⟩ := ihRest
    have hsplit : ∀ (p : REv → Bool),
        (∃ e ∈ (genCTrace inner config dv (indent + 1)).1 ++
            (genCTrace rest config (genCTrace inner config dv (indent + 1)).2.2 indent).1,
          p e = true) ↔
        ((∃ e ∈ (genCTrace inner config dv (indent + 1)).1, p e = true) ∨
          ∃ e ∈ (genCTrace rest config
            (genCTrace inner config dv (indent + 1)).2.2 indent).1, p e = true) := by
      intro p
      simp only [List.mem_append]
      constructor
      · rintro ⟨e, he | he, hp⟩
        · exact Or.inl ⟨e, he, hp⟩
        · exact Or.inr ⟨e, he, hp⟩
      · rintro (⟨e, he, hp⟩ | ⟨e, he, hp⟩)
        · exact ⟨e, Or.inl he, hp⟩
        · exact ⟨e, Or.inr he, hp⟩
    refine ⟨?_, ?_, ?_⟩
    · constructor
      · intro hfin
        rcases rA.mp hfin with hM | hrest
        · rcases iA.mp hM with hd | hinner
          · exact Or.inl hd
          · exact Or.inr ((hsplit _).mpr (Or.inl hinner))
        · exact Or.inr ((hsplit _).mpr (Or.inr hrest))
      · intro hcase
        rcases hcase with hd | hex
        · exact rA.mpr (Or.inl (iA.mpr (Or.inl hd)))
        · rcases (hsplit _).mp hex with hinner | hrest
          · exact rA.mpr (Or.inl (iA.mpr (Or.inr hinner)))
          · exact rA.mpr (Or.inr hrest)
    · intro hdv e he
      have hM : (genCTrace inner config dv (indent + 1)).2.2.contains v = true :=
        iA.mpr (Or.inl hdv)
      rcases List.mem_append.mp he with he' | he'
      · exact iB hdv e he'
      · exact rB hM e he'
    · intro hdv
      rcases iC hdv with hno | ⟨t₁, k, s, t₂, heq, h₁, h₂⟩
      · have hM : (genCTrace inner config dv (indent + 1)).2.2.contains v = false := by
          cases hM : (genCTrace inner config dv (indent + 1)).2.2.contains v
          · rfl
          · rcases iA.mp hM with hd | ⟨e, he, hp⟩
            · rw [hd] at hdv; exact Bool.noConfusion hdv
            · exact absurd hp (by simp [(hno e he).2])
        rcases rC hM with rno | ⟨t₁, k, s, t₂, heq, h₁, h₂⟩
        · left
          intro e he
          rcases List.mem_append.mp he with he' | he'
          · exact hno e he'
          · exact rno e he'
        · right
          refine ⟨(genCTrace inner config dv (indent + 1)).1 ++ t₁, k, s, t₂, ?_, ?_, h₂⟩
          · rw [heq, List.append_assoc]
          · intro e he
            rcases List.mem_append.mp he with he' | he'
            · exact hno e he'
            · exact h₁ e he'
      · have hM : (genCTrace inner config dv (indent + 1)).2.2.contains v = true := by
          refine iA.mpr (Or.inr ⟨REv.assign v s, ?_, by simp [isAssignTo]⟩)
          rw [heq]
          exact List.mem_append.mpr (Or.inr (List.mem_cons_of_mem _
            (List.mem_cons_self _ _)))
        right
        refine ⟨t₁, k, s, t₂ ++ (genCTrace rest config
          (genCTrace inner config dv (indent + 1)).2.2 indent).1, ?_, h₁, ?_⟩
        · rw [heq, List.append_assoc]
          simp
        · intro e he
          rcases List.mem_append.mp he with he' | he'
          · exact h₂ e he'
          · exact rB hM e he'
  | case5 config dv indent name inner rest hlook ih =>
    simp only [genCTrace, hlook]
    exact ih

/-- Closed instance of the C8 theorem: the declared-set representations
`["y", "y"]` and `["y"]` have the same membership, and rendering an
assignment from either gives the same output and extensionally equal final
sets. -/
theorem C8_witness :
    (generate_c_code [Statement.Simple "assignment" ["x", "1"]] cfgAssign
        ["y", "y"] 1).1 =
      (generate_c_code [Statement.Simple "assignment" ["x", "1"]] cfgAssign
        ["y"] 1).1
    ∧ ∀ v, (generate_c_code [Statement.Simple "assignment" ["x", "1"]] cfgAssign
        ["y", "y"] 1).2.contains v =
      (generate_c_code [Statement.Simple "assignment" ["x", "1"]] cfgAssign
        ["y"] 1).2.contains v :=
  C8_render_deterministic [Statement.Simple "assignment" ["x", "1"]] cfgAssign
    ["y", "y"] ["y"] 1
    (fun v => by
      rw [List.contains_cons, List.contains_cons, ← Bool.or_assoc, Bool.or_self])

/-- Claim C9. Within one top-level render call of the C backend (declared set
initially empty, as `main` creates it), for every variable `v`: either no
assignment to `v` is ever rendered and no `int v;` declaration is emitted,
or the emission trace splits as `t₁ ++ decl v :: assign v :: t₂` — the
declaration line `int v;` (at the indentation of the first assignment) is
emitted exactly once, immediately before the first rendered assignment to
`v`, with no `v`-events before it and no further declaration of `v` after
it, no matter how many assignments to `v` occur or how deeply they nest.
The instrumented renderer providing the trace reproduces exactly the
output string and final declared set of `generate_c_code`. -/
theorem C9_declaration_emitted_once (stmts : List Statement)
    (config : LanguageConfig) (v : String) :
    ((genCTrace stmts config [] 1).2.1 = (generate_c_code stmts config [] 1).1
      ∧ (genCTrace stmts config [] 1).2.2 = (generate_c_code stmts config [] 1).2)
    ∧ ((∀ e ∈ (genCTrace stmts config [] 1).1,
          isDeclFor v e = false ∧ isAssignTo v e = false)
       ∨ ∃ t₁ k s t₂,
          (genCTrace stmts config [] 1).1 =
            t₁ ++ REv.decl v (indentStr k ++ "int " ++ v ++ ";\n")
              :: REv.assign v s :: t₂
          ∧ (∀ e ∈ t₁, isDeclFor v e = false ∧ isAssignTo v e = false)
          ∧ (∀ e ∈ t₂, isDeclFor v e = false)) :=
  ⟨genCTrace_matches stmts config [] 1,
   (genCTrace_decl_invariant v stmts config [] 1).2.2 rfl⟩

/-- Closed instance of the C9 theorem on a single assignment to `x`. -/
theorem C9_witness :
    ((genCTrace [Statement.Simple "assignment" ["x", "1"]] cfgAssign [] 1).2.1 =
        (generate_c_code [Statement.Simple "assignment" ["x", "1"]] cfgAssign [] 1).1
      ∧ (genCTrace [Statement.Simple "assignment" ["x", "1"]] cfgAssign [] 1).2.2 =
        (generate_c_code [Statement.Simple "assignment" ["x", "1"]] cfgAssign [] 1).2)
    ∧ ((∀ e ∈ (genCTrace [Statement.Simple "assignment" ["x", "1"]] cfgAssign [] 1).1,
          isDeclFor "x" e = false ∧ isAssignTo "x" e = false)
       ∨ ∃ t₁ k s t₂,
          (genCTrace [Statement.Simple "assignment" ["x", "1"]] cfgAssign [] 1).1 =
            t₁ ++ REv.decl "x" (indentStr k ++ "int " ++ "x" ++ ";\n")
              :: REv.assign "x" s :: t₂
          ∧ (∀ e ∈ t₁, isDeclFor "x" e = false ∧ isAssignTo "x" e = false)
          ∧ (∀ e ∈ t₂, isDeclFor "x" e = false)) :=
  C9_declaration_emitted_once [Statement.Simple "assignment" ["x", "1"]] cfgAssign "x"

/-- The two block-rule loops agree. -/
theorem findBlockMatchPy_eq (blocks : List (String × BlockDef)) (sne : Bool)
    (line : String) : findBlockMatchPy blocks sne line = findBlockMatch blocks sne line := by
  induction blocks with
  | nil => rfl
  | cons hd tl ih =>
    obtain ⟨n, bd⟩ := hd
    simp only [findBlockMatch, findBlockMatchPy, ih]

/-- The two statement-rule loops agree. -/
theorem findStmtMatchPy_eq (stmts : List (String × StatementDef)) (line : String) :
    findStmtMatchPy stmts line = findStmtMatch stmts line := by
  induction stmts with
  | nil => rfl
  | cons hd tl ih =>
    obtain ⟨n, sd⟩ := hd
    simp only [findStmtMatch, findStmtMatchPy, ih]

/-- The two per-line loop bodies agree. -/
theorem processLinePy_eq (config : LanguageConfig) (st : ParseState) (line : String) :
    processLinePy config st line = processLine config st line := by
  simp only [processLine, processLinePy, findBlockMatchPy_eq, findStmtMatchPy_eq,
    pushNode, pushNodePy]

/-- Claim C10. The two backends' parsers are extensionally equal: on every
source string and language definition (including the mapping iteration
order the association lists carry) they produce identical ASTs. -/
theorem C10_parsers_extensionally_equal :
    ∀ (source : String) (config : LanguageConfig),
      parse_source source config = parse_source_py source config := by
  intro source config
  unfold parse_source parse_source_py
  have h : processLinePy config = processLine config := by
    funext st line
    exact processLinePy_eq config st line
  rw [h]

end Eidos
